import Mathlib

/-!
Verification of the one-membrane P-system simulator `psy.py` (99 lines).

The source represents a cell state as a `collections.Counter` over the five
symbols `a`–`e`, and a rule as a pair of Counters `(outgoing, incoming)`.
All Counter operations used by the source (`+`, `+=`, `-`, `-=`) keep only
positive entries, and Counter equality ignores absent keys, so a Counter is
faithfully modelled as a total function `Sym → Nat` with pointwise `+` and
truncated (natural) subtraction — exactly Python's `Counter.__sub__`.

The simulation loop `run` (source lines 39–65) can fail to terminate
(e.g. the rule `aA`), so it is embedded with an explicit fuel parameter:
`none` means the fuel ran out before the source program would have produced
an answer; `some` results agree with the source.
-/

namespace Psy

/-- The five-symbol alphabet (source line 36: `SYMBOLS = "abcde"`).
A symbol value itself is case-insensitive; case only matters in the
rule-file syntax. -/
inductive Sym : Type where
  | a | b | c | d | e
deriving DecidableEq, Repr, Fintype

/-- A cell state / rule side: a `Counter` over the five symbols, i.e. a
multiset given by its count function. -/
abbrev MS : Type := Sym → Nat

/-- `Counter()` — the empty multiset (source line 45: `to_add = Counter()`). -/
def MS.empty : MS := fun _ => 0

/-- Counter addition `+` / `+=` (source lines 51, 57): pointwise sum. -/
def MS.add (x y : MS) : MS := fun s => x s + y s

/-- Counter subtraction `-` / `-=` (source lines 49, 50): pointwise
truncated subtraction, keeping counts at 0 when the subtrahend exceeds
(Python Counters drop non-positive entries). -/
def MS.sub (x y : MS) : MS := fun s => x s - y s

/-- The spec's containment predicate (§4.1): `contains(a, b)` iff every
symbol's count in `b` is at most its count in `a`. -/
def MS.contains (x y : MS) : Prop := ∀ s, y s ≤ x s

instance (x y : MS) : Decidable (MS.contains x y) :=
  inferInstanceAs (Decidable (∀ s, y s ≤ x s))

/-- Counter emptiness: `not rule[0]` is true iff every count is 0 (parsed
Counters hold only positive entries, so falsiness means all counts zero). -/
def MS.isZero (x : MS) : Prop := ∀ s, x s = 0

instance (x : MS) : Decidable (MS.isZero x) :=
  inferInstanceAs (Decidable (∀ s, x s = 0))

/-- The source's containment test, verbatim (lines 49 and 60):
`state - outgoing + outgoing == state`. -/
def containsTest (state outg : MS) : Bool :=
  MS.add (MS.sub state outg) outg == state

/-- A rule (source line 28–29): a pair of Counters `(outgoing, incoming)`. -/
structure Rule where
  outgoing : MS
  incoming : MS

instance : DecidableEq Rule := fun r1 r2 =>
  decidable_of_iff (r1.outgoing = r2.outgoing ∧ r1.incoming = r2.incoming)
    (by cases r1; cases r2; simp)

/-- The two command-line options that reach `run` (source lines 89–92). -/
structure Opts where
  verbose : Bool
  detectLoops : Bool
deriving DecidableEq, Repr

/-- The two fatal errors (source lines 61–62 and 79). -/
inductive Err : Type where
  | invalidRule
  | divergence (prev cur : MS)

instance : DecidableEq Err := fun e1 e2 =>
  match e1, e2 with
  | .invalidRule, .invalidRule => isTrue rfl
  | .invalidRule, .divergence _ _ => isFalse (fun h => Err.noConfusion h)
  | .divergence _ _, .invalidRule => isFalse (fun h => Err.noConfusion h)
  | .divergence p c, .divergence q d =>
    decidable_of_iff (p = q ∧ c = d) (by simp)

/-- Outcome of `run`: the terminal multiset together with the number of
passes performed, or a raised exception. -/
inductive RunOut : Type where
  | ok (state : MS) (steps : Nat)
  | err (e : Err)

instance : DecidableEq RunOut := fun x y =>
  match x, y with
  | .ok s n, .ok t m => decidable_of_iff (s = t ∧ n = m) (by simp)
  | .ok _ _, .err _ => isFalse (fun h => RunOut.noConfusion h)
  | .err _, .ok _ _ => isFalse (fun h => RunOut.noConfusion h)
  | .err e, .err f => decidable_of_iff (e = f) (by simp)

instance : DecidableEq (Option RunOut) := fun x y =>
  match x, y with
  | none, none => isTrue rfl
  | none, some _ => isFalse (fun h => Option.noConfusion h)
  | some _, none => isFalse (fun h => Option.noConfusion h)
  | some a, some b => decidable_of_iff (a = b) (by simp)

instance : DecidableEq (Option MS) := fun x y =>
  match x, y with
  | none, none => isTrue rfl
  | none, some _ => isFalse (fun h => Option.noConfusion h)
  | some _, none => isFalse (fun h => Option.noConfusion h)
  | some a, some b => decidable_of_iff (a = b) (by simp)

/-- Total number of symbols in a multiset; strictly decreases at every
firing of a rule with non-empty outgoing side, which bounds the source's
inner `while` loop. -/
def msTotal (m : MS) : Nat := ∑ s : Sym, m s

/-- The inner `while` loop of `run` (source lines 48–56) draining one rule,
with an explicit iteration bound `fuel`.  Each round with
`state - outgoing + outgoing == state` does `state -= outgoing`,
`to_add += incoming` and clears the `end` flag.  For a rule with non-empty
outgoing side, `msTotal state + 1` rounds always suffice (`drain` below),
so the bound is invisible; for an empty outgoing side the source loop does
not terminate. -/
def drainGo (outg inc : MS) : Nat → MS → MS → Bool → MS × MS × Bool
  | 0, state, toAdd, flag => (state, toAdd, flag)
  | fuel+1, state, toAdd, flag =>
    if containsTest state outg then
      drainGo outg inc fuel (MS.sub state outg) (MS.add toAdd inc) false
    else
      (state, toAdd, flag)

/-- Drain one rule to exhaustion against `state`, accumulating produced
symbols into `toAdd` (source lines 48–56).  `flag` is the source's `end`
variable: `true` while no rule has fired in the current pass. -/
def drain (outg inc : MS) (state toAdd : MS) (flag : Bool) : MS × MS × Bool :=
  drainGo outg inc (msTotal state + 1) state toAdd flag

/-- The `for outgoing, incoming in rules` loop of one pass (source lines
47–56), threading `(state, to_add, end)` through the rules in declaration
order. -/
def passRules : List Rule → MS × MS × Bool → MS × MS × Bool
  | [], acc => acc
  | r :: rs, (state, toAdd, flag) =>
    passRules rs (drain r.outgoing r.incoming state toAdd flag)

/-- One step of the engine (spec §4.2): run one pass over all rules
starting from a fresh `to_add = Counter()` and `end = True`, then merge
`state += to_add` (source line 57).  Returns the new state and whether at
least one rule fired. -/
def stepEngine (rules : List Rule) (state : MS) : MS × Bool :=
  let r := passRules rules (state, MS.empty, true)
  (MS.add r.1 r.2.1, !r.2.2)

/-- The body of `run`'s `while True` loop (source lines 42–65), with fuel
bounding the number of passes and `n` counting completed passes.  After
`state += to_add`, when loop detection is on, the source scans
`previous_states` in insertion order and raises on the first `prev` with
`state - prev + prev == state` (lines 58–62), appends a copy of the state
(line 63), and only then tests `if end: return state` (lines 64–65). -/
def runAux (opts : Opts) (rules : List Rule) :
    Nat → MS → List MS → Nat → Option RunOut
  | 0, _, _, _ => none
  | fuel+1, state, hist, n =>
    let r := passRules rules (state, MS.empty, true)
    let s1 := MS.add r.1 r.2.1
    if opts.detectLoops then
      match hist.find? (fun prev => containsTest s1 prev) with
      | some prev => some (.err (.divergence prev s1))
      | none =>
        if r.2.2 then some (.ok s1 (n+1))
        else runAux opts rules fuel s1 (hist ++ [s1]) (n+1)
    else
      if r.2.2 then some (.ok s1 (n+1))
      else runAux opts rules fuel s1 hist (n+1)

/-- `run(rules, state, opts)` (source lines 39–65).  When loop detection is
enabled the history is seeded with a copy of the initial state (lines
40–41); otherwise `previous_states` is never created and the empty list is
passed as an unused placeholder. -/
def runPsy (opts : Opts) (rules : List Rule) (fuel : Nat) (state : MS) :
    Option RunOut :=
  runAux opts rules fuel state (if opts.detectLoops then [state] else []) 0

/-- `SYMBOLS = "abcde"` (source line 36), as its list of characters. -/
def SYMBOLS : List Char := ['a', 'b', 'c', 'd', 'e']

/-- The character a symbol is written as (lowercase). -/
def symChar : Sym → Char
  | .a => 'a' | .b => 'b' | .c => 'c' | .d => 'd' | .e => 'e'

/-- `Counter(list)` over recognized characters: the resulting count of a
symbol is the number of occurrences of its character in the list. -/
def countChars (cs : List Char) : MS := fun s => cs.count (symChar s)

/-- `Counter([symbol for symbol in word if symbol in SYMBOLS])` — the
outgoing side of a rule token (source lines 69–70). -/
def wordOutgoing (word : List Char) : MS :=
  countChars (word.filter (fun c => SYMBOLS.contains c))

/-- `Counter([symbol.lower() for symbol in word if symbol in
SYMBOLS.upper()])` — the incoming side of a rule token, case-folded to the
lowercase symbol identity (source lines 71–72). -/
def wordIncoming (word : List Char) : MS :=
  countChars ((word.filter
    (fun c => (SYMBOLS.map Char.toUpper).contains c)).map Char.toLower)

/-- One whitespace-separated token of a rule file, as a rule. -/
def parseRule (word : List Char) : Rule :=
  ⟨wordOutgoing word, wordIncoming word⟩

/-- Split a file's text into lines at newline characters.  Python's file
iteration keeps the trailing newline on each line and yields no empty
final line; both differences are invisible downstream (the comment test
looks only at the first character and word-splitting drops whitespace and
empty pieces). -/
def splitLines : List Char → List (List Char)
  | [] => [[]]
  | c :: cs =>
    if c = '\n' then [] :: splitLines cs
    else
      match splitLines cs with
      | [] => [[c]]
      | l :: ls => (c :: l) :: ls

/-- `str.split()` with no argument: split on runs of whitespace, dropping
empty pieces (source line 76: `line.split()`). -/
def wordsAux : List Char → List Char → List (List Char)
  | [], acc => if acc.isEmpty then [] else [acc.reverse]
  | c :: cs, acc =>
    if c.isWhitespace then
      if acc.isEmpty then wordsAux cs [] else acc.reverse :: wordsAux cs []
    else wordsAux cs (c :: acc)

/-- The whitespace-separated words of a line. -/
def splitWords (cs : List Char) : List (List Char) := wordsAux cs []

/-- The rule-list comprehension of `main` (source lines 69–76): over every
file, every non-empty non-comment line, every whitespace-separated word,
in order. -/
def parseRules (files : List (List Char)) : List Rule :=
  files.flatMap fun f =>
    ((splitLines f).filter
      (fun l => !l.isEmpty && !(l.head? == some '#'))).flatMap
      fun line => (splitWords line).map parseRule

/-- The initial cell contents read from stdin (source lines 80–81):
`Counter([symbol for symbol in input_state.read() if symbol in SYMBOLS])`.
Note `SYMBOLS` holds only the lowercase characters. -/
def parseState (input : List Char) : MS :=
  countChars (input.filter (fun c => SYMBOLS.contains c))

/-- `main` (source lines 68–82): parse the rules, reject any rule with an
empty outgoing Counter (lines 77–79, before stdin is read), then read the
initial state and run. -/
def mainPsy (files : List (List Char)) (input : List Char) (opts : Opts)
    (fuel : Nat) : Option RunOut :=
  let rules := parseRules files
  if rules.any (fun r => decide (MS.isZero r.outgoing)) then
    some (.err .invalidRule)
  else
    runPsy opts rules fuel (parseState input)

/-- The symbols in a fixed order, for rendering. -/
def symList : List Sym := [.a, .b, .c, .d, .e]

/-- Render a terminal multiset as text: each symbol repeated its count
times (source line 33 prints `"".join(self.elements())`; the source emits
Counter insertion order, here fixed to alphabetical order as §6 of the
spec directs — the two agree on every single-symbol multiset). -/
def render (m : MS) : List Char :=
  symList.flatMap fun s => List.replicate (m s) (symChar s)

/-- The spec's RuleSet invariant (§3): every rule's outgoing multiset is
non-empty.  `main` establishes it before `run` is called (source lines
77–79); `run` theorems assume it, since on a rule with empty outgoing side
the source's inner `while` loop would not terminate. -/
def ValidRules (rules : List Rule) : Prop :=
  ∀ r ∈ rules, ¬ MS.isZero r.outgoing

instance (rules : List Rule) : Decidable (ValidRules rules) :=
  inferInstanceAs (Decidable (∀ r ∈ rules, ¬ MS.isZero r.outgoing))

/-- Modelled from the spec's words (§4.2, step 2a), to be compared with the
implementation: `DrainRel outg inc state pending state2 pending2 fired`
holds when the spec's `while contains(state, out)` loop, started at
`(state, pending)`, stops at `(state2, pending2)` — each round requires
`contains(state, out)` against the already-decremented state, replaces
`state` by `subtract(state, out)` and `pending` by `add(pending, in)` —
and `fired` records whether at least one application occurred. -/
inductive DrainRel (outg inc : MS) :
    MS → MS → MS → MS → Bool → Prop where
  | halt (state pending : MS) (h : ¬ MS.contains state outg) :
      DrainRel outg inc state pending state pending false
  | fire (state pending s2 p2 : MS) (f : Bool)
      (h : MS.contains state outg)
      (rest : DrainRel outg inc (MS.sub state outg) (MS.add pending inc)
        s2 p2 f) :
      DrainRel outg inc state pending s2 p2 true

/-- Modelled from the spec's words (§4.2, step 2): process each rule in
declaration order, draining it to exhaustion; the final flag is true iff
some rule fired during the pass. -/
inductive PassRel : List Rule → MS → MS → MS → MS → Bool → Prop where
  | nil (state pending : MS) : PassRel [] state pending state pending false
  | cons (r : Rule) (rs : List Rule) (state pending s1 p1 s2 p2 : MS)
      (f1 f2 : Bool)
      (hd : DrainRel r.outgoing r.incoming state pending s1 p1 f1)
      (hp : PassRel rs s1 p1 s2 p2 f2) :
      PassRel (r :: rs) state pending s2 p2 (f1 || f2)

/-- The state at the start of pass `n` of the simulation loop (spec §4.3):
iterate the step engine `n` times from the initial state. -/
def iterState (rules : List Rule) (state : MS) : Nat → MS
  | 0 => state
  | n+1 => (stepEngine rules (iterState rules state n)).1

/-- Instrumentation of `drainGo`: the list of `(state, outgoing)` pairs at
each subtraction `state -= outgoing` the inner loop performs (source line
50), in execution order. -/
def drainGoSubs (outg : MS) : Nat → MS → List (MS × MS)
  | 0, _ => []
  | fuel+1, state =>
    if containsTest state outg then
      (state, outg) :: drainGoSubs outg fuel (MS.sub state outg)
    else []

/-- The subtraction call sites of one rule's drain. -/
def drainSubs (outg : MS) (state : MS) : List (MS × MS) :=
  drainGoSubs outg (msTotal state + 1) state

/-- The subtraction call sites of one pass over the rules, in order. -/
def passSubs : List Rule → MS × MS × Bool → List (MS × MS)
  | [], _ => []
  | r :: rs, (state, toAdd, flag) =>
    drainSubs r.outgoing state ++
      passSubs rs (drain r.outgoing r.incoming state toAdd flag)

/-- The subtraction call sites of a whole run, mirroring `runAux`'s control
flow. -/
def runAuxSubs (opts : Opts) (rules : List Rule) :
    Nat → MS → List MS → List (MS × MS)
  | 0, _, _ => []
  | fuel+1, state, hist =>
    let r := passRules rules (state, MS.empty, true)
    let s1 := MS.add r.1 r.2.1
    passSubs rules (state, MS.empty, true) ++
      (if opts.detectLoops then
        match hist.find? (fun prev => containsTest s1 prev) with
        | some _ => []
        | none =>
          if r.2.2 then [] else runAuxSubs opts rules fuel s1 (hist ++ [s1])
      else
        if r.2.2 then [] else runAuxSubs opts rules fuel s1 hist)

/-- The subtraction call sites of `run(rules, state, opts)`. -/
def runSubs (opts : Opts) (rules : List Rule) (fuel : Nat) (state : MS) :
    List (MS × MS) :=
  runAuxSubs opts rules fuel state (if opts.detectLoops then [state] else [])

/-- The embedding of a count into the integers, to state that no operation
drives a count negative. -/
def toZ (m : MS) (s : Sym) : Int := (m s : Int)

/-! ## Basic lemmas about the multiset operations -/

/-- The source's containment test `state - outgoing + outgoing == state`
computes exactly the spec's pointwise containment predicate. -/
theorem containsTest_iff (x y : MS) :
    containsTest x y = true ↔ MS.contains x y := by
  unfold containsTest MS.contains MS.add MS.sub
  rw [beq_iff_eq, funext_iff]
  constructor
  · intro h s; have := h s; omega
  · intro h s; have := h s; omega

/-- Containment is reflexive (every multiset weakly dominates itself). -/
theorem containsTest_refl (x : MS) : containsTest x x = true :=
  (containsTest_iff x x).mpr fun s => le_refl (x s)

/-- Adding the empty multiset changes nothing. -/
theorem MS.add_empty (m : MS) : MS.add m MS.empty = m :=
  funext fun s => by simp [MS.add, MS.empty]

/-- Firing a rule with non-empty outgoing side strictly shrinks the total
symbol count (this bounds the source's inner `while` loop). -/
theorem msTotal_sub_lt (x y : MS) (hc : MS.contains x y)
    (hne : ¬ MS.isZero y) : msTotal (MS.sub x y) < msTotal x := by
  unfold msTotal
  have hex : ∃ s, y s ≠ 0 := by
    by_contra h
    push_neg at h
    exact hne h
  obtain ⟨s0, hs0⟩ := hex
  apply Finset.sum_lt_sum (fun i _ => Nat.sub_le _ _)
  refine ⟨s0, Finset.mem_univ s0, ?_⟩
  have h2 := hc s0
  have h3 : MS.sub x y s0 = x s0 - y s0 := rfl
  omega

/-! ## Lemmas about the drain loop and a pass -/

/-- If the `end` flag is still set after a drain, the drain did nothing:
the state and accumulator are unchanged and the flag was already set. -/
theorem drainGo_done (outg inc : MS) :
    ∀ (fuel : Nat) (state toAdd : MS) (flag : Bool) (s2 t2 : MS),
      drainGo outg inc fuel state toAdd flag = (s2, t2, true) →
      s2 = state ∧ t2 = toAdd ∧ flag = true := by
  intro fuel
  induction fuel with
  | zero =>
    intro state toAdd flag s2 t2 h
    simp only [drainGo, Prod.mk.injEq] at h
    exact ⟨h.1.symm, h.2.1.symm, h.2.2⟩
  | succ n ih =>
    intro state toAdd flag s2 t2 h
    rw [drainGo] at h
    split at h
    · exact absurd (ih _ _ _ _ _ h).2.2 (by simp)
    · simp only [Prod.mk.injEq] at h
      exact ⟨h.1.symm, h.2.1.symm, h.2.2⟩

/-- If the `end` flag is still set after a whole pass, no rule fired: the
state and accumulator are unchanged and the flag was set on entry. -/
theorem passRules_done :
    ∀ (rules : List Rule) (state toAdd : MS) (flag : Bool) (s2 t2 : MS),
      passRules rules (state, toAdd, flag) = (s2, t2, true) →
      s2 = state ∧ t2 = toAdd ∧ flag = true := by
  intro rules
  induction rules with
  | nil =>
    intro state toAdd flag s2 t2 h
    simp only [passRules, Prod.mk.injEq] at h
    exact ⟨h.1.symm, h.2.1.symm, h.2.2⟩
  | cons r rs ih =>
    intro state toAdd flag s2 t2 h
    rw [passRules] at h
    rcases hd : drain r.outgoing r.incoming state toAdd flag with ⟨d1, d2, d3⟩
    rw [hd] at h
    obtain ⟨h1, h2, h3⟩ := ih _ _ _ _ _ h
    subst h3
    obtain ⟨g1, g2, g3⟩ := drainGo_done r.outgoing r.incoming _ _ _ _ _ _ hd
    exact ⟨h1.trans g1, h2.trans g2, g3⟩

/-- A step that fires no rule leaves the state unchanged. -/
theorem stepEngine_unfired (rules : List Rule) (state : MS)
    (h : (stepEngine rules state).2 = false) :
    (stepEngine rules state).1 = state := by
  rcases hp : passRules rules (state, MS.empty, true) with ⟨s, t, d⟩
  simp only [stepEngine, hp, Bool.not_eq_false'] at h ⊢
  subst h
  obtain ⟨h1, h2, _⟩ := passRules_done rules state MS.empty true s t hp
  rw [h1, h2, MS.add_empty]

/-- One unfolding of the simulation loop body (source lines 42–65),
phrased through the step engine: compute the pass, and then — in the
source's order — check the history for a dominated previous state, halt if
nothing fired, or continue with the new state. -/
theorem runAux_succ (opts : Opts) (rules : List Rule) (fuel : Nat)
    (state : MS) (hist : List MS) (n : Nat) :
    runAux opts rules (fuel+1) state hist n =
      if opts.detectLoops then
        match hist.find? (fun prev => containsTest (stepEngine rules state).1 prev) with
        | some prev =>
          some (.err (.divergence prev (stepEngine rules state).1))
        | none =>
          if (stepEngine rules state).2 then
            runAux opts rules fuel (stepEngine rules state).1
              (hist ++ [(stepEngine rules state).1]) (n+1)
          else some (.ok (stepEngine rules state).1 (n+1))
      else
        if (stepEngine rules state).2 then
          runAux opts rules fuel (stepEngine rules state).1 hist (n+1)
        else some (.ok (stepEngine rules state).1 (n+1)) := by
  rw [runAux]
  rcases hp : passRules rules (state, MS.empty, true) with ⟨s, t, d⟩
  simp only [stepEngine, hp]
  cases d <;> simp

/-! ## Claim theorems -/

/-- C6: for all multisets `a` and `b`, if `contains(a, b)` holds (pointwise
`a[symbol] ≥ b[symbol]` for every symbol) then `add(subtract(a, b), b)`
equals `a`. -/
theorem psy_C6_sub_add_cancel (a b : MS) (h : MS.contains a b) :
    MS.add (MS.sub a b) b = a :=
  funext fun s => by
    have h2 := h s
    have h3 : MS.add (MS.sub a b) b s = a s - b s + b s := rfl
    omega

theorem psy_C6_witness :
    MS.contains (parseState ['a', 'a', 'b']) (parseState ['a']) ∧
      MS.add (MS.sub (parseState ['a', 'a', 'b']) (parseState ['a']))
        (parseState ['a']) = parseState ['a', 'a', 'b'] :=
  ⟨by decide, psy_C6_sub_add_cancel _ _ (by decide)⟩

/-- C2 counterexample: the state reader keeps only characters in
`SYMBOLS = "abcde"` (source lines 80–81), so the uppercase input `"A"`
contributes nothing: it yields the empty multiset, not `{a:1}`, and
differs from the multiset read from `"a"`. -/
theorem psy_C2_cex :
    parseState ['A'] = MS.empty ∧ parseState ['a'] Sym.a = 1 ∧
      parseState ['A'] ≠ parseState ['a'] :=
  ⟨by decide, by decide, by decide⟩

/-- C2 amended: when building the initial multiset from standard input,
only the lowercase letters `a`–`e` are significant — each symbol's count
is exactly the number of occurrences of its lowercase character in the
input, and every other character (including uppercase `A`–`E`) is
ignored. -/
theorem psy_C2_amended (cs : List Char) (s : Sym) :
    parseState cs s = cs.count (symChar s) := by
  have hmem : SYMBOLS.contains (symChar s) = true := by cases s <;> decide
  exact List.count_filter hmem

/-- C7: if any loaded rule has an empty outgoing multiset, `main` fails
with the `InvalidRule` error — for every stdin content, every option
setting and every amount of run fuel (in particular fuel `0`, showing the
failure happens before the simulation loop does anything). -/
theorem psy_C7_invalid_rule (files : List (List Char))
    (h : ∃ r ∈ parseRules files, MS.isZero r.outgoing) :
    ∀ (input : List Char) (opts : Opts) (fuel : Nat),
      mainPsy files input opts fuel = some (.err .invalidRule) := by
  intro input opts fuel
  obtain ⟨r, hr, hz⟩ := h
  have hany : (parseRules files).any
      (fun r => decide (MS.isZero r.outgoing)) = true := by
    rw [List.any_eq_true]
    exact ⟨r, hr, by simpa using hz⟩
  simp [mainPsy, hany]

theorem psy_C7_witness :
    (∃ r ∈ parseRules [['A', 'B', 'C']], MS.isZero r.outgoing) ∧
      mainPsy [['A', 'B', 'C']] ['a', 'a'] ⟨false, true⟩ 0 =
        some (.err .invalidRule) :=
  ⟨by decide, psy_C7_invalid_rule _ (by decide) _ _ _⟩

/-- C8: the run is deterministic — two runs given identical rule lists,
identical initial multisets, identical options (and the same fuel, an
artifact of the embedding) produce identical outcomes, in particular the
same terminal multiset and the same step count when they halt. -/
theorem psy_C8_deterministic (opts1 opts2 : Opts) (rules1 rules2 : List Rule)
    (fuel1 fuel2 : Nat) (state1 state2 : MS)
    (ho : opts1 = opts2) (hr : rules1 = rules2) (hf : fuel1 = fuel2)
    (hs : state1 = state2) :
    runPsy opts1 rules1 fuel1 state1 = runPsy opts2 rules2 fuel2 state2 := by
  subst ho hr hf hs
  rfl

theorem psy_C8_witness :
    runPsy ⟨false, false⟩ (parseRules [['a', 'a', 'B']]) 3
        (parseState ['a', 'a', 'a', 'a']) =
      runPsy ⟨false, false⟩ (parseRules [['a', 'a', 'B']]) 3
        (parseState ['a', 'a', 'a', 'a']) :=
  psy_C8_deterministic _ _ _ _ _ _ _ _ rfl rfl rfl rfl

/-- C10: Scenario B — with the single rule `aaB` (outgoing `{a:2}`,
incoming `{b:1}`) and input `"aaaa"` (initial multiset `{a:4}`), the first
step performs exactly two subtractions (fires the rule exactly twice) and
yields `{b:2}`, the second step fires nothing, the run terminates after
two passes with final multiset `{b:2}`, and the result renders as
`"bb"`. -/
theorem psy_C10_scenarioB :
    stepEngine (parseRules [['a', 'a', 'B']]) (parseState ['a', 'a', 'a', 'a']) =
      (parseState ['b', 'b'], true) ∧
    (passSubs (parseRules [['a', 'a', 'B']])
      (parseState ['a', 'a', 'a', 'a'], MS.empty, true)).length = 2 ∧
    stepEngine (parseRules [['a', 'a', 'B']]) (parseState ['b', 'b']) =
      (parseState ['b', 'b'], false) ∧
    mainPsy [['a', 'a', 'B']] ['a', 'a', 'a', 'a'] ⟨false, false⟩ 2 =
      some (.ok (parseState ['b', 'b']) 2) ∧
    render (parseState ['b', 'b']) = ['b', 'b'] :=
  ⟨by decide, by decide, by decide, by decide, by decide⟩

/-! ## The simulation loop: halting without loop detection (C1) -/

/-- Starting the iteration one step later shifts the index by one. -/
theorem iterState_shift (rules : List Rule) (state : MS) :
    ∀ n, iterState rules ((stepEngine rules state).1) n =
      iterState rules state (n+1) := by
  intro n
  induction n with
  | zero => rfl
  | succ k ih => rw [iterState, ih]; rfl

/-- Without loop detection, if the first `n` passes fire and pass `n+1`
does not, the loop returns the state reached after `n` passes, having
performed `n+1` passes in total. -/
theorem runAux_halt (opts : Opts) (rules : List Rule)
    (hl : opts.detectLoops = false) :
    ∀ (n fuel : Nat) (state : MS) (hist : List MS) (cnt : Nat),
      n < fuel →
      (∀ i < n, (stepEngine rules (iterState rules state i)).2 = true) →
      (stepEngine rules (iterState rules state n)).2 = false →
      runAux opts rules fuel state hist cnt =
        some (.ok (iterState rules state n) (cnt + n + 1)) := by
  intro n
  induction n with
  | zero =>
    intro fuel state hist cnt hfuel hfire hstop
    obtain ⟨f2, rfl⟩ : ∃ f2, fuel = f2 + 1 := ⟨fuel - 1, by omega⟩
    have hs0 : (stepEngine rules state).2 = false := hstop
    have h1 := stepEngine_unfired rules state hs0
    rw [runAux_succ, hl]
    rw [if_neg (by simp)]
    rw [hs0]
    rw [if_neg (by simp)]
    rw [h1]
    rfl
  | succ k ih =>
    intro fuel state hist cnt hfuel hfire hstop
    obtain ⟨f2, rfl⟩ : ∃ f2, fuel = f2 + 1 := ⟨fuel - 1, by omega⟩
    have hf0 : (stepEngine rules state).2 = true := by
      have := hfire 0 (by omega)
      simpa [iterState] using this
    rw [runAux_succ, hl]
    rw [if_neg (by simp)]
    rw [hf0]
    rw [if_pos rfl]
    have hrec := ih f2 ((stepEngine rules state).1) hist (cnt+1) (by omega)
      (fun i hi => by rw [iterState_shift]; exact hfire (i+1) (by omega))
      (by rw [iterState_shift]; exact hstop)
    rw [hrec, iterState_shift]
    have : cnt + 1 + k + 1 = cnt + (k + 1) + 1 := by omega
    rw [this]

/-- C1 counterexample: with loop detection enabled, the rule `aB` and
initial multiset `{a:1}`, the first non-firing pass does not return the
current multiset `{b:1}` after 2 passes as the claim demands — the run
raises the divergence error instead. -/
theorem psy_C1_cex :
    runPsy ⟨false, true⟩ (parseRules [['a', 'B']]) 3 (parseState ['a']) =
      some (.err (.divergence (parseState ['b']) (parseState ['b']))) ∧
    runPsy ⟨false, true⟩ (parseRules [['a', 'B']]) 3 (parseState ['a']) ≠
      some (.ok (parseState ['b']) 2) :=
  ⟨by decide, by decide⟩

/-- C1 amended: for every valid RuleSet and initial multiset, **when loop
detection is disabled**, the simulation loop repeatedly invokes the step
engine and, on the first pass that fires no rule, halts and returns the
current multiset unchanged as the terminal output (with loop detection
enabled, that pass instead raises the divergence error — see the
counterexample). -/
theorem psy_C1_halts (opts : Opts) (rules : List Rule) (state : MS)
    (n fuel : Nat) (hv : ValidRules rules) (hl : opts.detectLoops = false)
    (hfire : ∀ i < n, (stepEngine rules (iterState rules state i)).2 = true)
    (hstop : (stepEngine rules (iterState rules state n)).2 = false)
    (hfuel : n < fuel) :
    runPsy opts rules fuel state =
      some (.ok (iterState rules state n) (n + 1)) ∧
      (stepEngine rules (iterState rules state n)).1 =
        iterState rules state n := by
  constructor
  · unfold runPsy
    rw [hl]
    rw [if_neg (by simp)]
    have := runAux_halt opts rules hl n fuel state [] 0 hfuel hfire hstop
    simpa using this
  · exact stepEngine_unfired _ _ hstop

theorem psy_C1_witness :
    ValidRules (parseRules [['a', 'a', 'B']]) ∧
      (runPsy ⟨false, false⟩ (parseRules [['a', 'a', 'B']]) 2
          (parseState ['a', 'a', 'a', 'a']) =
        some (.ok (iterState (parseRules [['a', 'a', 'B']])
          (parseState ['a', 'a', 'a', 'a']) 1) 2) ∧
        (stepEngine (parseRules [['a', 'a', 'B']])
            (iterState (parseRules [['a', 'a', 'B']])
              (parseState ['a', 'a', 'a', 'a']) 1)).1 =
          iterState (parseRules [['a', 'a', 'B']])
            (parseState ['a', 'a', 'a', 'a']) 1) :=
  ⟨by decide, psy_C1_halts ⟨false, false⟩ _ _ 1 2 (by decide) rfl
    (by decide) (by decide) (by omega)⟩

/-! ## The simulation loop with loop detection never returns (C3) -/

/-- With loop detection on, if the current state is already recorded in
the history then the loop can never return normally: on a firing pass it
recurses with the new state appended to the history, and on a non-firing
pass the unchanged state dominates its own history entry (containment is
reflexive), so the divergence error is raised before the halt test. -/
theorem runAux_detect_never_ok (opts : Opts) (rules : List Rule)
    (hd : opts.detectLoops = true) :
    ∀ (fuel : Nat) (state : MS) (hist : List MS) (cnt : Nat),
      state ∈ hist →
      ∀ (m : MS) (k : Nat),
        runAux opts rules fuel state hist cnt ≠ some (.ok m k) := by
  intro fuel
  induction fuel with
  | zero =>
    intro state hist cnt hmem m k
    simp [runAux]
  | succ f2 ih =>
    intro state hist cnt hmem m k
    rw [runAux_succ, hd]
    rw [if_pos rfl]
    cases hfind : hist.find?
        (fun prev => containsTest (stepEngine rules state).1 prev) with
    | some prev =>
      intro hcon
      exact RunOut.noConfusion (Option.some.inj hcon)
    | none =>
      cases hstep : (stepEngine rules state).2 with
      | true =>
        rw [if_pos rfl]
        exact ih _ _ _ (by simp) m k
      | false =>
        exfalso
        have h1 := stepEngine_unfired rules state hstep
        rw [List.find?_eq_none] at hfind
        have h2 := hfind state hmem
        rw [h1] at h2
        exact absurd (containsTest_refl state) h2

/-- C3: with loop detection enabled the run never returns a terminal
multiset normally; moreover, on a pass in which no rule fires from a state
already in the history (as the unchanged state always is), the divergence
error is raised instead of returning. -/
theorem psy_C3_detect_never_returns (opts : Opts) (rules : List Rule)
    (fuel : Nat) (state : MS) (f2 cnt : Nat) (st : MS) (hist : List MS)
    (hv : ValidRules rules) (hd : opts.detectLoops = true)
    (hmem : st ∈ hist) (hstop : (stepEngine rules st).2 = false) :
    (∀ (m : MS) (k : Nat), runPsy opts rules fuel state ≠ some (.ok m k)) ∧
      ∃ p, runAux opts rules (f2+1) st hist cnt =
        some (.err (.divergence p st)) := by
  constructor
  · intro m k
    unfold runPsy
    rw [hd]
    rw [if_pos rfl]
    exact runAux_detect_never_ok opts rules hd fuel state [state] 0
      (by simp) m k
  · have h1 := stepEngine_unfired rules st hstop
    rw [runAux_succ, hd]
    rw [if_pos rfl]
    cases hfind : hist.find?
        (fun prev => containsTest (stepEngine rules st).1 prev) with
    | some prev => exact ⟨prev, by rw [h1]⟩
    | none =>
      exfalso
      rw [List.find?_eq_none] at hfind
      have h2 := hfind st hmem
      rw [h1] at h2
      exact absurd (containsTest_refl st) h2

theorem psy_C3_witness :
    ValidRules (parseRules [['a', 'B']]) ∧
      ((∀ (m : MS) (k : Nat),
        runPsy ⟨false, true⟩ (parseRules [['a', 'B']]) 3 (parseState ['a']) ≠
          some (.ok m k)) ∧
      ∃ p, runAux ⟨false, true⟩ (parseRules [['a', 'B']]) 1 (parseState ['b'])
          [parseState ['a'], parseState ['b']] 1 =
        some (.err (.divergence p (parseState ['b'])))) :=
  ⟨by decide, psy_C3_detect_never_returns ⟨false, true⟩ _ 3 (parseState ['a'])
    0 1 (parseState ['b']) [parseState ['a'], parseState ['b']]
    (by decide) rfl (by decide) (by decide)⟩

/-! ## The step engine refines the spec's algorithm (C4) -/

/-- The fueled drain loop realizes the spec's `while contains` loop: for a
rule with non-empty outgoing side and enough fuel, its result is related
to its input by `DrainRel`, and the `end` flag comes out cleared exactly
when it was cleared on entry or the drain fired. -/
theorem drainGo_rel (outg inc : MS) (hne : ¬ MS.isZero outg) :
    ∀ (fuel : Nat) (state toAdd : MS) (flag : Bool),
      msTotal state < fuel →
      ∃ fd, DrainRel outg inc state toAdd
          (drainGo outg inc fuel state toAdd flag).1
          (drainGo outg inc fuel state toAdd flag).2.1 fd ∧
        (drainGo outg inc fuel state toAdd flag).2.2 = (flag && !fd) := by
  intro fuel
  induction fuel with
  | zero =>
    intro state toAdd flag h
    exact absurd h (Nat.not_lt_zero _)
  | succ f2 ih =>
    intro state toAdd flag h
    rw [drainGo]
    cases hct : containsTest state outg with
    | true =>
      rw [if_pos rfl]
      have hcon := (containsTest_iff _ _).mp hct
      have hlt : msTotal (MS.sub state outg) < f2 := by
        have := msTotal_sub_lt state outg hcon hne
        omega
      obtain ⟨fd, hrel, hflag⟩ := ih (MS.sub state outg) (MS.add toAdd inc)
        false hlt
      refine ⟨true, DrainRel.fire _ _ _ _ fd hcon hrel, ?_⟩
      rw [hflag]
      simp
    | false =>
      rw [if_neg (by simp)]
      refine ⟨false, DrainRel.halt state toAdd ?_, by simp⟩
      intro hcon
      rw [(containsTest_iff _ _).mpr hcon] at hct
      exact Bool.noConfusion hct

/-- `drain` itself satisfies the spec's drain relation. -/
theorem drain_rel (outg inc : MS) (hne : ¬ MS.isZero outg)
    (state toAdd : MS) (flag : Bool) :
    ∃ fd, DrainRel outg inc state toAdd
        (drain outg inc state toAdd flag).1
        (drain outg inc state toAdd flag).2.1 fd ∧
      (drain outg inc state toAdd flag).2.2 = (flag && !fd) :=
  drainGo_rel outg inc hne _ state toAdd flag (Nat.lt_succ_self _)

/-- A pass over a valid rule list realizes the spec's per-rule drain
sequence, with the `end` flag recording that no rule fired. -/
theorem passRules_rel :
    ∀ (rules : List Rule), ValidRules rules →
      ∀ (state toAdd : MS) (flag : Bool),
        ∃ fd, PassRel rules state toAdd
            (passRules rules (state, toAdd, flag)).1
            (passRules rules (state, toAdd, flag)).2.1 fd ∧
          (passRules rules (state, toAdd, flag)).2.2 = (flag && !fd) := by
  intro rules
  induction rules with
  | nil =>
    intro hv state toAdd flag
    exact ⟨false, PassRel.nil state toAdd, by simp [passRules]⟩
  | cons r rs ih =>
    intro hv state toAdd flag
    have hne : ¬ MS.isZero r.outgoing := hv r (by simp)
    have hvrs : ValidRules rs := fun q hq => hv q (by simp [hq])
    obtain ⟨fd1, hrel1, hflag1⟩ :=
      drain_rel r.outgoing r.incoming hne state toAdd flag
    rcases hd : drain r.outgoing r.incoming state toAdd flag with ⟨d1, d2, d3⟩
    rw [hd] at hrel1 hflag1
    have hflag1' : d3 = (flag && !fd1) := hflag1
    obtain ⟨fd2, hrel2, hflag2⟩ := ih hvrs d1 d2 d3
    rw [passRules, hd]
    refine ⟨fd1 || fd2,
      PassRel.cons r rs state toAdd d1 d2 _ _ fd1 fd2 hrel1 hrel2, ?_⟩
    rw [hflag2, hflag1']
    cases flag <;> cases fd1 <;> cases fd2 <;> rfl

/-- The state reached by a drain (and whether it fired) never depends on
the `to_add` accumulator or the `end` flag: produced symbols are invisible
to containment until the pass ends. -/
theorem drainGo_state_indep (outg inc : MS) :
    ∀ (fuel : Nat) (state t1 t2 : MS) (f1 f2 : Bool),
      (drainGo outg inc fuel state t1 f1).1 =
        (drainGo outg inc fuel state t2 f2).1 := by
  intro fuel
  induction fuel with
  | zero => intro state t1 t2 f1 f2; rfl
  | succ f ih =>
    intro state t1 t2 f1 f2
    rw [drainGo, drainGo]
    cases hct : containsTest state outg with
    | true =>
      rw [if_pos rfl, if_pos rfl]
      exact ih (MS.sub state outg) (MS.add t1 inc) (MS.add t2 inc) false false
    | false => rw [if_neg (by simp), if_neg (by simp)]

/-- The state a pass produces does not depend on the accumulator or flag
it starts with. -/
theorem passRules_state_indep :
    ∀ (rules : List Rule) (state t1 t2 : MS) (f1 f2 : Bool),
      (passRules rules (state, t1, f1)).1 =
        (passRules rules (state, t2, f2)).1 := by
  intro rules
  induction rules with
  | nil => intro state t1 t2 f1 f2; rfl
  | cons r rs ih =>
    intro state t1 t2 f1 f2
    rw [passRules, passRules]
    have h3 : (drain r.outgoing r.incoming state t1 f1).1 =
        (drain r.outgoing r.incoming state t2 f2).1 :=
      drainGo_state_indep r.outgoing r.incoming (msTotal state + 1)
        state t1 t2 f1 f2
    rcases h1 : drain r.outgoing r.incoming state t1 f1 with ⟨a1, b1, c1⟩
    rcases h2 : drain r.outgoing r.incoming state t2 f2 with ⟨a2, b2, c2⟩
    rw [h1, h2] at h3
    subst h3
    exact ih a1 b1 b2 c1 c2

/-- C4: one step of the engine proceeds exactly as the spec states — for
each rule in declaration order a `while contains(state, out)` loop
subtracts `out` from the state and accumulates `in` into a separate
pending multiset (`PassRel`, written from the spec's words); the final
state is `add(state, pending)`; `fired` is true iff at least one
application occurred; and the pending accumulator is never consulted for
containment (the state a pass reaches is independent of it). -/
theorem psy_C4_step_matches_spec (rules : List Rule) (state : MS)
    (hv : ValidRules rules) :
    PassRel rules state MS.empty
        (passRules rules (state, MS.empty, true)).1
        (passRules rules (state, MS.empty, true)).2.1
        (!(passRules rules (state, MS.empty, true)).2.2) ∧
      stepEngine rules state =
        (MS.add (passRules rules (state, MS.empty, true)).1
            (passRules rules (state, MS.empty, true)).2.1,
          !(passRules rules (state, MS.empty, true)).2.2) ∧
      ∀ (t1 t2 : MS) (f1 f2 : Bool),
        (passRules rules (state, t1, f1)).1 =
          (passRules rules (state, t2, f2)).1 := by
  refine ⟨?_, rfl, fun t1 t2 f1 f2 =>
    passRules_state_indep rules state t1 t2 f1 f2⟩
  obtain ⟨fd, hrel, hflag⟩ := passRules_rel rules hv state MS.empty true
  have h2 : fd = !(passRules rules (state, MS.empty, true)).2.2 := by
    rw [hflag]
    cases fd <;> rfl
  rwa [h2] at hrel

theorem psy_C4_witness :
    ValidRules (parseRules [['a', 'a', 'B']]) ∧
      (PassRel (parseRules [['a', 'a', 'B']]) (parseState ['a', 'a', 'a', 'a'])
          MS.empty
          (passRules (parseRules [['a', 'a', 'B']])
            (parseState ['a', 'a', 'a', 'a'], MS.empty, true)).1
          (passRules (parseRules [['a', 'a', 'B']])
            (parseState ['a', 'a', 'a', 'a'], MS.empty, true)).2.1
          (!(passRules (parseRules [['a', 'a', 'B']])
            (parseState ['a', 'a', 'a', 'a'], MS.empty, true)).2.2) ∧
        stepEngine (parseRules [['a', 'a', 'B']])
            (parseState ['a', 'a', 'a', 'a']) =
          (MS.add (passRules (parseRules [['a', 'a', 'B']])
              (parseState ['a', 'a', 'a', 'a'], MS.empty, true)).1
            (passRules (parseRules [['a', 'a', 'B']])
              (parseState ['a', 'a', 'a', 'a'], MS.empty, true)).2.1,
            !(passRules (parseRules [['a', 'a', 'B']])
              (parseState ['a', 'a', 'a', 'a'], MS.empty, true)).2.2) ∧
        ∀ (t1 t2 : MS) (f1 f2 : Bool),
          (passRules (parseRules [['a', 'a', 'B']])
            (parseState ['a', 'a', 'a', 'a'], t1, f1)).1 =
            (passRules (parseRules [['a', 'a', 'B']])
              (parseState ['a', 'a', 'a', 'a'], t2, f2)).1) :=
  ⟨by decide, psy_C4_step_matches_spec _ _ (by decide)⟩

/-! ## The loop detector (C5) -/

/-- A successful `find?` returns the first satisfying element: the list
splits around it with every earlier element failing the predicate. -/
theorem find?_split {α : Type} (p : α → Bool) :
    ∀ (l : List α) (a : α), l.find? p = some a →
      p a = true ∧ ∃ l1 l2, l = l1 ++ a :: l2 ∧ ∀ x ∈ l1, p x = false := by
  intro l
  induction l with
  | nil =>
    intro a h
    exact absurd h (by simp)
  | cons b bs ih =>
    intro a h
    rw [List.find?_cons] at h
    cases hp : p b with
    | true =>
      rw [hp] at h
      have hba : b = a := by
        have h2 : some b = some a := h
        exact Option.some.inj h2
      subst hba
      exact ⟨hp, [], bs, rfl, by simp⟩
    | false =>
      rw [hp] at h
      have h2 : bs.find? p = some a := h
      obtain ⟨hpa, l1, l2, heq, hall⟩ := ih a h2
      refine ⟨hpa, b :: l1, l2, by rw [heq]; rfl, ?_⟩
      intro x hx
      rcases List.mem_cons.mp hx with hx | hx
      · rw [hx]; exact hp
      · exact hall x hx

/-- C5: with loop detection enabled, the history is seeded with the
initial multiset before the first step; each pass computes the step's new
state and scans the history, in insertion order, for the first previous
entry the new state contains — raising the divergence error carrying that
entry and the new state — and otherwise appends the new state and
continues, halting only when no rule fired.  A successful scan means the
returned entry really is contained and really is the first such entry in
insertion order. -/
theorem psy_C5_loop_detector (opts : Opts) (rules : List Rule)
    (fuel f2 n : Nat) (state st1 st2 : MS) (hist hist2 : List MS) (prev : MS)
    (hd : opts.detectLoops = true)
    (hfind : hist2.find? (fun q => containsTest st2 q) = some prev) :
    runPsy opts rules fuel state = runAux opts rules fuel state [state] 0 ∧
      runAux opts rules (f2+1) st1 hist n =
        (match hist.find? (fun q => containsTest (stepEngine rules st1).1 q) with
         | some p => some (.err (.divergence p (stepEngine rules st1).1))
         | none =>
           if (stepEngine rules st1).2 then
             runAux opts rules f2 (stepEngine rules st1).1
               (hist ++ [(stepEngine rules st1).1]) (n+1)
           else some (.ok (stepEngine rules st1).1 (n+1))) ∧
      MS.contains st2 prev ∧
      ∃ l1 l2, hist2 = l1 ++ prev :: l2 ∧ ∀ q ∈ l1, ¬ MS.contains st2 q := by
  refine ⟨?_, ?_, ?_, ?_⟩
  · unfold runPsy
    rw [hd]
    rw [if_pos rfl]
  · rw [runAux_succ, hd]
    rw [if_pos rfl]
  · obtain ⟨hp, _⟩ := find?_split _ hist2 prev hfind
    exact (containsTest_iff _ _).mp hp
  · obtain ⟨_, l1, l2, heq, hall⟩ := find?_split _ hist2 prev hfind
    refine ⟨l1, l2, heq, fun q hq hcon => ?_⟩
    have := hall q hq
    rw [(containsTest_iff _ _).mpr hcon] at this
    exact Bool.noConfusion this

theorem psy_C5_witness :
    (([parseState ['a'], parseState ['b']].find?
        (fun q => containsTest (parseState ['b']) q)) = some (parseState ['b'])) ∧
      (runPsy ⟨false, true⟩ (parseRules [['a', 'B']]) 3 (parseState ['a']) =
        runAux ⟨false, true⟩ (parseRules [['a', 'B']]) 3 (parseState ['a'])
          [parseState ['a']] 0 ∧
      runAux ⟨false, true⟩ (parseRules [['a', 'B']]) 2 (parseState ['a'])
          [parseState ['a']] 0 =
        (match [parseState ['a']].find?
            (fun q => containsTest
              (stepEngine (parseRules [['a', 'B']]) (parseState ['a'])).1 q) with
         | some p => some (.err (.divergence p
             (stepEngine (parseRules [['a', 'B']]) (parseState ['a'])).1))
         | none =>
           if (stepEngine (parseRules [['a', 'B']]) (parseState ['a'])).2 then
             runAux ⟨false, true⟩ (parseRules [['a', 'B']]) 1
               (stepEngine (parseRules [['a', 'B']]) (parseState ['a'])).1
               ([parseState ['a']] ++
                 [(stepEngine (parseRules [['a', 'B']]) (parseState ['a'])).1]) 1
           else some (.ok
             (stepEngine (parseRules [['a', 'B']]) (parseState ['a'])).1 1)) ∧
      MS.contains (parseState ['b']) (parseState ['b']) ∧
      ∃ l1 l2, [parseState ['a'], parseState ['b']] = l1 ++ parseState ['b'] :: l2 ∧
        ∀ q ∈ l1, ¬ MS.contains (parseState ['b']) q) :=
  ⟨by decide, psy_C5_loop_detector ⟨false, true⟩ (parseRules [['a', 'B']])
    3 1 0 (parseState ['a']) (parseState ['a']) (parseState ['b'])
    [parseState ['a']] [parseState ['a'], parseState ['b']] (parseState ['b'])
    rfl (by decide)⟩

/-! ## No operation drives a count negative (C9) -/

/-- Every subtraction the drain loop performs is guarded: the recorded
state contains the recorded subtrahend. -/
theorem drainGoSubs_mem (outg : MS) :
    ∀ (fuel : Nat) (state : MS) (q : MS × MS),
      q ∈ drainGoSubs outg fuel state → containsTest q.1 q.2 = true := by
  intro fuel
  induction fuel with
  | zero =>
    intro state q hq
    exact absurd hq (by simp [drainGoSubs])
  | succ f ih =>
    intro state q hq
    rw [drainGoSubs] at hq
    by_cases hct : containsTest state outg = true
    · rw [if_pos hct] at hq
      rcases List.mem_cons.mp hq with hq | hq
      · rw [hq]; exact hct
      · exact ih _ q hq
    · rw [if_neg hct] at hq
      exact absurd hq (by simp)

/-- Every subtraction a pass performs is guarded by containment. -/
theorem passSubs_mem :
    ∀ (rules : List Rule) (acc : MS × MS × Bool) (q : MS × MS),
      q ∈ passSubs rules acc → containsTest q.1 q.2 = true := by
  intro rules
  induction rules with
  | nil =>
    intro acc q hq
    exact absurd hq (by simp [passSubs])
  | cons r rs ih =>
    intro acc q hq
    obtain ⟨s, t, f⟩ := acc
    rw [passSubs] at hq
    rcases List.mem_append.mp hq with hq | hq
    · exact drainGoSubs_mem r.outgoing _ s q hq
    · exact ih _ q hq

/-- Every subtraction the whole run performs is guarded by containment. -/
theorem runAuxSubs_mem (opts : Opts) (rules : List Rule) :
    ∀ (fuel : Nat) (state : MS) (hist : List MS) (q : MS × MS),
      q ∈ runAuxSubs opts rules fuel state hist →
      containsTest q.1 q.2 = true := by
  intro fuel
  induction fuel with
  | zero =>
    intro state hist q hq
    exact absurd hq (by simp [runAuxSubs])
  | succ f ih =>
    intro state hist q hq
    simp only [runAuxSubs] at hq
    rcases List.mem_append.mp hq with hq | hq
    · exact passSubs_mem rules _ q hq
    · split at hq
      · split at hq
        · exact absurd hq (by simp)
        · split at hq
          · exact absurd hq (by simp)
          · exact ih _ _ q hq
      · split at hq
        · exact absurd hq (by simp)
        · exact ih _ _ q hq

/-- C9: every subtraction `state -= outgoing` a run performs is applied to
a state that contains the subtrahend; consequently, read over the
integers, each resulting count `state[s] - outgoing[s]` is still
non-negative, and the Counter's truncating subtraction coincides with
exact integer subtraction there — no operation ever drives a count
negative. -/
theorem psy_C9_no_negative_counts (opts : Opts) (rules : List Rule)
    (fuel : Nat) (state : MS) (q : MS × MS) (hv : ValidRules rules)
    (hq : q ∈ runSubs opts rules fuel state) :
    MS.contains q.1 q.2 ∧
      (∀ s, 0 ≤ toZ q.1 s - toZ q.2 s) ∧
      (∀ s, toZ (MS.sub q.1 q.2) s = toZ q.1 s - toZ q.2 s) := by
  have hct : containsTest q.1 q.2 = true :=
    runAuxSubs_mem opts rules fuel state
      (if opts.detectLoops then [state] else []) q hq
  have hcon := (containsTest_iff _ _).mp hct
  refine ⟨hcon, ?_, ?_⟩
  · intro s
    have := hcon s
    unfold toZ
    omega
  · intro s
    have h1 := hcon s
    have h2 : MS.sub q.1 q.2 s = q.1 s - q.2 s := rfl
    unfold toZ
    omega

theorem psy_C9_witness :
    ValidRules (parseRules [['a', 'a', 'B']]) ∧
      ((parseState ['a', 'a', 'a', 'a'], wordOutgoing ['a', 'a', 'B']) ∈
        runSubs ⟨false, false⟩ (parseRules [['a', 'a', 'B']]) 3
          (parseState ['a', 'a', 'a', 'a'])) ∧
      (MS.contains (parseState ['a', 'a', 'a', 'a']) (wordOutgoing ['a', 'a', 'B']) ∧
        (∀ s, 0 ≤ toZ (parseState ['a', 'a', 'a', 'a']) s -
          toZ (wordOutgoing ['a', 'a', 'B']) s) ∧
        (∀ s, toZ (MS.sub (parseState ['a', 'a', 'a', 'a'])
            (wordOutgoing ['a', 'a', 'B'])) s =
          toZ (parseState ['a', 'a', 'a', 'a']) s -
            toZ (wordOutgoing ['a', 'a', 'B']) s)) :=
  ⟨by decide, by decide, psy_C9_no_negative_counts ⟨false, false⟩
    (parseRules [['a', 'a', 'B']]) 3 (parseState ['a', 'a', 'a', 'a'])
    (parseState ['a', 'a', 'a', 'a'], wordOutgoing ['a', 'a', 'B'])
    (by decide) (by decide)⟩

end Psy
